import Mathlib

/-!
# Verification of the uMyo protocol parser (uMyo_python_tools)

Shallow embedding of `umyo_parser.py`, `umyo_class.py` and `quat_math.py`,
together with theorems settling the frozen claims about the parser's
frame scanning, field decoding, orientation fusion and device registry.

Python integers are modelled as `ℕ`/`ℤ` (they are unbounded in Python);
floating point values are modelled as real numbers `ℝ`, ignoring rounding
error but keeping every branch and formula of the source.  Buffers are
`List ℕ` of byte values.
-/

open Real

set_option maxRecDepth 100000

namespace UMyo

/-! ## Embedding of quat_math.py -/

/-- 3D vector, `sV = namedtuple("sV", "x y z")` (quat_math.py line 62). -/
structure sV where
  x : ℝ
  y : ℝ
  z : ℝ

/-- Quaternion, `sQ = namedtuple("sQ", "w x y z")` (quat_math.py line 63). -/
structure sQ where
  w : ℝ
  x : ℝ
  y : ℝ
  z : ℝ

/-- `q_norm` (quat_math.py line 90). -/
noncomputable def q_norm (q : sQ) : ℝ :=
  Real.sqrt (q.x * q.x + q.y * q.y + q.z * q.z + q.w * q.w)

/-- `v_norm` (quat_math.py line 115). -/
noncomputable def v_norm (v : sV) : ℝ :=
  Real.sqrt (v.x * v.x + v.y * v.y + v.z * v.z)

/-- `q_renorm` (quat_math.py lines 142-153). -/
noncomputable def q_renorm (q : sQ) : sQ :=
  let r := q_norm q
  if 0 < r then
    let m := 1 / r
    ⟨q.w * m, q.x * m, q.y * m, q.z * m⟩
  else ⟨0, 0, 0, 0⟩

/-- `v_renorm` (quat_math.py lines 179-188): the zero-guarded vector
normalization, returning the zero vector when the norm is not positive. -/
noncomputable def v_renorm (v : sV) : sV :=
  let r := v_norm v
  if 0 < r then
    let m := 1 / r
    ⟨v.x * m, v.y * m, v.z * m⟩
  else ⟨0, 0, 0⟩

/-- `q_make_conj` (quat_math.py lines 215-216). -/
def q_make_conj (q : sQ) : sQ := ⟨q.w, -q.x, -q.y, -q.z⟩

/-- `q_mult` (quat_math.py lines 247-251). -/
def q_mult (q1 q2 : sQ) : sQ :=
  ⟨q1.w * q2.w - (q1.x * q2.x + q1.y * q2.y + q1.z * q2.z),
   q1.w * q2.x + q2.w * q1.x + q1.y * q2.z - q1.z * q2.y,
   q1.w * q2.y + q2.w * q1.y + q1.z * q2.x - q1.x * q2.z,
   q1.w * q2.z + q2.w * q1.z + q1.x * q2.y - q1.y * q2.x⟩

/-- `rotate_v` (quat_math.py lines 281-285). -/
def rotate_v (q : sQ) (v : sV) : sV :=
  let r : sQ := ⟨0, v.x, v.y, v.z⟩
  let qc := q_make_conj q
  let qq := q_mult r qc
  let rq := q_mult q qq
  ⟨rq.x, rq.y, rq.z⟩

/-- `v_mult`, the cross product (quat_math.py lines 337-340). -/
def v_mult (v1 v2 : sV) : sV :=
  ⟨v1.y * v2.z - v1.z * v2.y,
   v1.z * v2.x - v1.x * v2.z,
   v1.x * v2.y - v1.y * v2.x⟩

/-- `v_dot` (quat_math.py line 379). -/
def v_dot (v1 v2 : sV) : ℝ :=
  v1.x * v2.x + v1.y * v2.y + v1.z * v2.z

/-! ## Embedding of umyo_class.py -/

/-- Per-device state, `class uMyo` (umyo_class.py lines 68-105).
Byte-valued and counter fields are `ℕ`, signed decoded samples are `ℤ`,
float-valued fields (`pitch`, `mag_angle`) are `ℝ`.  Fields that
`umyo_parser.py` never touches (`steps`, `zeroQ`, speeds, ...) are omitted;
they stay at their initial value throughout the parsing pipeline. -/
structure uMyo where
  unit_id : ℕ
  packet_type : ℕ
  data_count : ℕ
  batt : ℕ
  version : ℕ
  data_id : ℕ
  prev_data_id : ℕ
  data_array : List ℤ
  device_spectr : List ℤ
  Qsg : List ℤ
  yaw : ℤ
  pitch : ℝ
  roll : ℤ
  ax : ℤ
  ay : ℤ
  az : ℤ
  mag_angle : ℝ
  rssi : ℕ

/-- `uMyo.__init__` (umyo_class.py lines 68-105): everything zero-initialized,
`data_array` has 64 slots, `device_spectr` 16, `Qsg` 4. -/
def uMyo.init (uid : ℕ) : uMyo where
  unit_id := uid
  packet_type := 0
  data_count := 0
  batt := 0
  version := 0
  data_id := 0
  prev_data_id := 0
  data_array := List.replicate 64 0
  device_spectr := List.replicate 16 0
  Qsg := List.replicate 4 0
  yaw := 0
  pitch := 0
  roll := 0
  ax := 0
  ay := 0
  az := 0
  mag_angle := 0
  rssi := 0

instance : Inhabited uMyo := ⟨uMyo.init 0⟩

/-! ## Embedding of umyo_parser.py: device registry -/

/-- The registry pairs each device (`umyo_list` entry) with its unseen
counter (`unseen_cnt` entry); the two Python lists are kept in lockstep, so
they are modelled as one list of pairs. -/
abbrev Registry := List (uMyo × ℕ)

/-- The eviction sweep inside `id2idx` (umyo_parser.py lines 164-172): one
compacting pass that deletes every slot whose unseen counter exceeds 1000
and whose unit id differs from the id being resolved. -/
def sweep : Registry → ℕ → Registry
  | [], _ => []
  | p :: rest, uid =>
    if 1000 < p.2 ∧ p.1.unit_id ≠ uid then sweep rest uid
    else p :: sweep rest uid

/-- The match loop inside `id2idx` (umyo_parser.py lines 173-177): walk the
slots, incrementing each unseen counter, until the first slot whose unit id
matches; that slot's counter is reset to 0 and its index is returned.  Slots
after the match are left untouched (the Python loop returns early). -/
def touch : Registry → ℕ → Registry × Option ℕ
  | [], _ => ([], none)
  | p :: rest, uid =>
    if p.1.unit_id = uid then ((p.1, 0) :: rest, some 0)
    else
      let r := touch rest uid
      ((p.1, p.2 + 1) :: r.1, r.2.map (· + 1))

/-- `id2idx` (umyo_parser.py lines 164-181): sweep, then search; if no slot
matches, append a fresh zero-initialized device and return its index. -/
def id2idx (st : Registry) (uid : ℕ) : Registry × ℕ :=
  let s1 := sweep st uid
  let t := touch s1 uid
  match t.2 with
  | some i => (t.1, i)
  | none => (t.1 ++ [(uMyo.init uid, 0)], t.1.length)

/-- A fold of `id2idx` over a list of resolved ids (the registry state after
a sequence of lookups). -/
def runCalls (st : Registry) (calls : List ℕ) : Registry :=
  calls.foldl (fun s v => (id2idx s v).1) st

/-- The unit ids of the registry's slots, in slot order. -/
def ids (st : Registry) : List ℕ := st.map fun p => p.1.unit_id

/-! ## Embedding of umyo_parser.py: field decoder -/

/-- `parse_buf[i]`; all accesses made by the parser are in bounds when the
scanner's length check passed, so a default of 0 is never observed there. -/
def byteAt (buf : List ℕ) (i : ℕ) : ℕ := buf.getD i 0

/-- In-place update of one list element, as `umyo_list[idx] = ...`
mutation. -/
def modifyAt {α : Type} : List α → ℕ → (α → α) → List α
  | [], _, _ => []
  | a :: l, 0, f => f a :: l
  | a :: l, n + 1, f => a :: modifyAt l n f

/-- EMG sample conversion (umyo_parser.py lines 321-324):
`val = hb*256+lb; if hb > 127: val = -65536 + val`. -/
def emg_sdec (hb lb : ℕ) : ℤ :=
  if 127 < hb then -65536 + ((hb : ℤ) * 256 + lb) else (hb : ℤ) * 256 + lb

/-- Signed 16-bit conversion used for quaternion/accelerometer/yaw/pitch/roll
and magnetometer words (umyo_parser.py lines 340-342 and analogous blocks):
`val = hb*256+lb; if val > 32767: val = -(65536 - val)`. -/
def sdec16 (hb lb : ℕ) : ℤ :=
  if 32767 < hb * 256 + lb then -(65536 - ((hb : ℤ) * 256 + lb))
  else (hb : ℤ) * 256 + lb

/-- Unsigned 16-bit conversion used for the spectrum words
(umyo_parser.py lines 326-334, sign extension commented out). -/
def udec16 (hb lb : ℕ) : ℤ := (hb : ℤ) * 256 + lb

/-- The `data_id` delta reconstruction (umyo_parser.py lines 311-315):
`d_id = data_id - prev; if d_id < 0: d_id += 256`. -/
def data_id_delta (wire prev : ℕ) : ℕ :=
  let d : ℤ := (wire : ℤ) - (prev : ℤ)
  (if d < 0 then d + 256 else d).toNat

/-- The 32-bit big-endian unit id assembled at umyo_parser.py
lines 275-284. -/
def frame_unit_id (buf : List ℕ) (pos : ℕ) : ℕ :=
  ((byteAt buf (pos + 2) * 256 + byteAt buf (pos + 3)) * 256
      + byteAt buf (pos + 4)) * 256 + byteAt buf (pos + 5)

/-- `math.atan2` on reals, following the C/Python convention (quadrant-aware
arctangent; signed zeros of floats collapse to the single real 0). -/
noncomputable def atan2 (y x : ℝ) : ℝ :=
  if 0 < x then Real.arctan (y / x)
  else if x < 0 then
    (if 0 ≤ y then Real.arctan (y / x) + π else Real.arctan (y / x) - π)
  else if 0 < y then π / 2
  else if y < 0 then -(π / 2)
  else 0

/-- The smoothed-pitch update (umyo_parser.py lines 482-486): blend the new
pitch into the stored pitch, then snap to the new pitch when the new pitch
and the freshly blended value sit on opposite sides of the ±2000 boundary.
`s` is the persisted pitch, `pn` the recomputed pitch of this frame. -/
noncomputable def pitchNext (s : ℝ) (pn : ℤ) : ℝ :=
  let p1 := s * 0.95 + 0.05 * (pn : ℝ)
  let p2 := if 2000 < pn ∧ p1 < -2000 then (pn : ℝ) else p1
  if pn < -2000 ∧ 2000 < p2 then (pn : ℝ) else p2

/-- The tilt-compensated heading computation (umyo_parser.py lines 448-469)
from the decoded accelerometer and magnetometer words. -/
noncomputable def magAngle (axv ayv azv mxv myv mzv : ℤ) : ℝ :=
  let M := v_renorm ⟨(mxv : ℝ), (myv : ℝ), (mzv : ℝ)⟩
  let A := v_renorm ⟨(axv : ℝ), (ayv : ℝ), -(azv : ℝ)⟩
  let m_vert := v_dot A M
  let M_hor := v_renorm ⟨M.x - m_vert * A.x, M.y - m_vert * A.y, M.z - m_vert * A.z⟩
  let H : sV := ⟨0, 1, 0⟩
  let h_vert := v_dot A H
  let H_hor := v_renorm ⟨H.x - h_vert * A.x, H.y - h_vert * A.y, H.z - h_vert * A.z⟩
  let HM := v_mult H_hor M_hor
  let asign : ℝ := if v_dot HM A < 0 then 1 else -1
  asign * Real.arccos (v_dot H_hor M_hor)

/-- The state update that `umyo_parse` applies to the resolved slot when
the packet type is valid (umyo_parser.py lines 290-491): field extraction,
sign conversion, orientation fusion and the final stores. -/
noncomputable def parseUpdate (buf : List ℕ) (pos : ℕ) (d : uMyo) : uMyo :=
  let rssi := byteAt buf (pos - 1)
  let packet_len := byteAt buf (pos + 1)
  let packet_type := byteAt buf (pos + 6)
  let dc := packet_type - 80
  let param_id := byteAt buf (pos + 7)
    let pb1 := byteAt buf (pos + 8)
    let pb2 := byteAt buf (pos + 9)
    let wire_id := byteAt buf (pos + 11)
    let emg := (List.range dc).map fun x =>
      emg_sdec (byteAt buf (pos + 12 + 2 * x)) (byteAt buf (pos + 13 + 2 * x))
    let spectr := (List.range 4).map fun x =>
      udec16 (byteAt buf (pos + 12 + 2 * dc + 2 * x)) (byteAt buf (pos + 13 + 2 * dc + 2 * x))
    let qww := sdec16 (byteAt buf (pos + 20 + 2 * dc)) (byteAt buf (pos + 21 + 2 * dc))
    let qwx := sdec16 (byteAt buf (pos + 22 + 2 * dc)) (byteAt buf (pos + 23 + 2 * dc))
    let qwy := sdec16 (byteAt buf (pos + 24 + 2 * dc)) (byteAt buf (pos + 25 + 2 * dc))
    let qwz := sdec16 (byteAt buf (pos + 26 + 2 * dc)) (byteAt buf (pos + 27 + 2 * dc))
    let axv := sdec16 (byteAt buf (pos + 28 + 2 * dc)) (byteAt buf (pos + 29 + 2 * dc))
    let ayv := sdec16 (byteAt buf (pos + 30 + 2 * dc)) (byteAt buf (pos + 31 + 2 * dc))
    let azv := sdec16 (byteAt buf (pos + 32 + 2 * dc)) (byteAt buf (pos + 33 + 2 * dc))
    let yawv := sdec16 (byteAt buf (pos + 34 + 2 * dc)) (byteAt buf (pos + 35 + 2 * dc))
    -- the wire pitch word at pos + 36 + 2*dc is read by the source but
    -- overwritten at line 473 before any use, and the `yaw_q` value of
    -- lines 448-451 is computed and discarded; neither affects the state
    let rollv := sdec16 (byteAt buf (pos + 38 + 2 * dc)) (byteAt buf (pos + 39 + 2 * dc))
    -- magnetometer words are present iff `pos + packet_len > pp + 5` with
    -- `pp = pos + 40 + 2*dc` (umyo_parser.py line 423)
    let hasMag := pos + 40 + 2 * dc + 5 < pos + packet_len
    let mxv := if hasMag then
      sdec16 (byteAt buf (pos + 40 + 2 * dc)) (byteAt buf (pos + 41 + 2 * dc)) else 0
    let myv := if hasMag then
      sdec16 (byteAt buf (pos + 42 + 2 * dc)) (byteAt buf (pos + 43 + 2 * dc)) else 0
    let mzv := if hasMag then
      sdec16 (byteAt buf (pos + 44 + 2 * dc)) (byteAt buf (pos + 45 + 2 * dc)) else 0
    let mag := magAngle axv ayv azv mxv myv mzv
    let pitch_new : ℤ := round (atan2 (ayv : ℝ) (azv : ℝ) * 1000)
    { d with
      data_count := dc
      packet_type := 80
      rssi := rssi
      batt := if param_id = 0 then 2000 + pb1 * 10 else d.batt
      version := if param_id = 0 then pb2 else d.version
      prev_data_id := wire_id
      data_id := d.data_id + data_id_delta wire_id d.prev_data_id
      data_array := emg ++ d.data_array.drop dc
      device_spectr := spectr ++ d.device_spectr.drop 4
      Qsg := [qww, qwx, qwy, qwz]
      yaw := yawv
      pitch := pitchNext d.pitch pitch_new
      roll := rollv
      ax := axv
      ay := ayv
      az := azv
      mag_angle := mag }

/-- `umyo_parse` (umyo_parser.py lines 268-491).  `pos` points at the
`packet_id` byte (the scanner passes `i + 3`).  The registry lookup runs
first; a packet type outside the exclusive range (80,120) aborts decoding,
leaving only the lookup's side effects.  Otherwise every field of the
matched slot is rewritten from the frame via `parseUpdate`. -/
noncomputable def umyo_parse (buf : List ℕ) (pos : ℕ) (st : Registry) : Registry :=
  let unit_id := frame_unit_id buf pos
  let r1 := id2idx st unit_id
  let st1 := r1.1
  let idx := r1.2
  let packet_type := byteAt buf (pos + 6)
  if 80 < packet_type ∧ packet_type < 120 then
    modifyAt st1 idx fun p => (parseUpdate buf pos p.1, p.2)
  else st1

/-! ## Embedding of umyo_parser.py: frame scanner -/

/-- The scan loop of `umyo_parse_preprocessor` (umyo_parser.py lines
582-598), fuel-based so that it reduces structurally.  The cursor `i`
advances by one byte, or past a decoded frame by `1 + packet_len`; the
loop runs only while `i < cnt - 70`.  Returns the final `parsed_pos`
and the list of positions (`i + 3`, the `packet_id` byte) handed to
`umyo_parse`, in decode order.  The cursor advances by at least one byte
per step, so `cnt` fuel is always enough. -/
def scanLoop (buf : List ℕ) (cnt : ℕ) : ℕ → ℕ → ℕ → ℕ × List ℕ
  | 0, _, parsedPos => (parsedPos, [])
  | fuel + 1, i, parsedPos =>
    if i < cnt - 70 then
      let L := byteAt buf (i + 4)
      if byteAt buf i = 79 ∧ byteAt buf (i + 1) = 213 ∧ 20 < L ∧ i + 5 + L ≤ cnt then
        let r := scanLoop buf cnt fuel (i + 1 + L) (i + 2 + L)
        (r.1, (i + 3) :: r.2)
      else scanLoop buf cnt fuel (i + 1) parsedPos
    else (parsedPos, [])

/-- One scan pass over a buffer of length `cnt`, starting at cursor 0 with
`parsed_pos = 0`. -/
def scanPass (buf : List ℕ) (cnt : ℕ) : ℕ × List ℕ :=
  scanLoop buf cnt cnt 0 0

/-- A complete, valid frame begins at index `i` of the buffer: the two
marker bytes 0x4F 0xD5, a plausible length (`> 20`), and all payload bytes
buffered (`i + 5 + L ≤ cnt`). -/
def validFrameAt (buf : List ℕ) (cnt i : ℕ) : Prop :=
  byteAt buf i = 79 ∧ byteAt buf (i + 1) = 213 ∧
    20 < byteAt buf (i + 4) ∧ i + 5 + byteAt buf (i + 4) ≤ cnt

instance (buf : List ℕ) (cnt i : ℕ) : Decidable (validFrameAt buf cnt i) := by
  unfold validFrameAt; infer_instance

/-- The buffer-level effect of `umyo_parse_preprocessor` (umyo_parser.py
lines 576-602): append the fed chunk, bail out returning 0 if fewer than 72
bytes are accumulated, otherwise scan, drop the consumed prefix, and return
the pre-drop length.  Result: (new accumulator, return value, decode
positions). -/
def umyo_scan (buf data : List ℕ) : List ℕ × ℕ × List ℕ :=
  let b := buf ++ data
  let cnt := b.length
  if cnt < 72 then (b, 0, [])
  else
    let r := scanPass b cnt
    ((if 0 < r.1 then b.drop r.1 else b), cnt, r.2)

/-- `umyo_parse_preprocessor` in full (umyo_parser.py lines 576-602): the
buffer-level scan together with the `umyo_parse` calls it makes, folded
over the registry.  `umyo_parse` never touches the accumulator and the
scanner never touches the registry, so running the decodes after the scan
is equivalent to the source's interleaving.  Result: (registry, new
accumulator, return value, decode positions). -/
noncomputable def umyo_parse_preprocessor (st : Registry) (buf data : List ℕ) :
    Registry × List ℕ × ℕ × List ℕ :=
  let r := umyo_scan buf data
  (r.2.2.foldl (fun s p => umyo_parse (buf ++ data) p s) st, r)

/-! ## Concrete test vectors -/

/-- A 71-byte wire frame: marker `0x4F 0xD5`, link-quality byte 10,
`packet_id` 1, `frame_length` 66, and 66 payload bytes all equal to `r`. -/
def testFrame (r : ℕ) : List ℕ := [79, 213, 10, 1, 66] ++ List.replicate 66 r

/-- Three complete valid frames concatenated into one chunk (213 bytes). -/
def bufThree : List ℕ := testFrame 1 ++ testFrame 1 ++ testFrame 1

/-- A 72-byte buffer whose only complete valid frame starts at index 2,
inside the final 70 bytes of the buffer. -/
def bufLate : List ℕ :=
  [0, 0] ++ ([79, 213, 10, 1, 21] ++ List.replicate 21 1) ++ List.replicate 44 0

/-- One complete 71-byte frame followed by a single stray byte. -/
def bufTail : List ℕ := testFrame 2 ++ [9]

/-- A second 71-byte frame with payload bytes 3, used split across calls. -/
def frameB : List ℕ := [79, 213, 10, 1, 66] ++ List.replicate 66 3

/-- A complete valid 26-byte frame (`frame_length` 21). -/
def shortFrame : List ℕ := [79, 213, 10, 1, 21] ++ List.replicate 21 1

/-- A 45-byte no-magnetometer frame used for the field-decoder claims, laid
out for `pos = 3`: rssi 10, `packet_id` 1, `frame_length` 47, unit id 777
(bytes 0 0 3 9), `packet_type` 81 (one EMG sample), `param_id` 0,
`wire_data_id` 200, EMG word (200,100), spectrum words (1,2) (3,4) (5,6)
(7,8), quaternion words (0,10) (0,20) (0,30) (0,40), accel words
ax = (0,50), ay = (0,0), az = (255,255), yaw = (100,0), wire pitch (0,0),
roll = (255,0).  `frame_length` 47 = 45 + 2·1 means no magnetometer. -/
def wireFrame : List ℕ :=
  [79, 213, 10, 1, 47, 0, 0, 3, 9, 81, 0, 5, 7, 0, 200,
   200, 100,
   1, 2, 3, 4, 5, 6, 7, 8,
   0, 10, 0, 20, 0, 30, 0, 40,
   0, 50, 0, 0, 255, 255,
   100, 0, 0, 0, 255, 0]

/-- A device slot for unit 777 whose persisted smoothed pitch is −2001,
just below the −2000 wraparound boundary. -/
def devC8 : uMyo := { uMyo.init 777 with pitch := -2001 }

/-! ## C10: totality of vector normalization -/

/-- C10: vector normalization is total: `v_renorm` returns the zero vector
when the input's norm is zero (in particular on the zero vector itself, the
absent-magnetometer case), and the input divided componentwise by its norm
otherwise; the division happens only under the `norm > 0` guard. -/
theorem c10_v_renorm_total :
    (∀ v : sV, v_norm v = 0 → v_renorm v = ⟨0, 0, 0⟩) ∧
    (∀ v : sV, v_norm v ≠ 0 →
      v_renorm v = ⟨v.x / v_norm v, v.y / v_norm v, v.z / v_norm v⟩) ∧
    v_renorm ⟨0, 0, 0⟩ = ⟨0, 0, 0⟩ := by
  have hz : ∀ v : sV, v_norm v = 0 → v_renorm v = ⟨0, 0, 0⟩ := by
    intro v h
    simp only [v_renorm, h, lt_irrefl, if_false, if_neg]
  refine ⟨hz, ?_, ?_⟩
  · intro v h
    have hpos : 0 < v_norm v := lt_of_le_of_ne (Real.sqrt_nonneg _) (Ne.symm h)
    simp only [v_renorm, if_pos hpos, mul_one_div]
  · apply hz
    simp [v_norm]

/-- Witness for C10 at concrete inputs: the zero vector maps to the zero
vector, and `(3,4,0)` (norm 5) maps to its norm-divided components. -/
theorem c10_witness :
    v_norm ⟨0, 0, 0⟩ = 0 ∧ v_renorm ⟨0, 0, 0⟩ = ⟨0, 0, 0⟩ ∧
    v_norm ⟨3, 4, 0⟩ ≠ 0 ∧
    v_renorm ⟨3, 4, 0⟩ =
      ⟨3 / v_norm ⟨3, 4, 0⟩, 4 / v_norm ⟨3, 4, 0⟩, 0 / v_norm ⟨3, 4, 0⟩⟩ := by
  have h0 : v_norm ⟨0, 0, 0⟩ = 0 := by simp [v_norm]
  have h5 : v_norm ⟨3, 4, 0⟩ = 5 := by
    have : (3 : ℝ) * 3 + 4 * 4 + 0 * 0 = 5 ^ 2 := by norm_num
    rw [v_norm, this, Real.sqrt_sq (by norm_num : (0:ℝ) ≤ 5)]
  have h5' : v_norm ⟨3, 4, 0⟩ ≠ 0 := by rw [h5]; norm_num
  exact ⟨h0, c10_v_renorm_total.1 _ h0, h5', c10_v_renorm_total.2.1 _ h5'⟩

/-! ## C3: does one call decode every complete frame in the buffer? -/

/-- C3 counterexample: a 72-byte accumulated buffer contains one complete
valid frame (marker at index 2, `frame_length` 21, all payload buffered),
yet one call to the parsing entry point decodes nothing, because the scan
loop only visits cursor positions below `cnt - 70`. -/
theorem c3_counterexample :
    validFrameAt bufLate 72 2 ∧ (umyo_scan [] bufLate).2.2 = [] := by
  constructor <;> decide

/-- C3 as amended: the scan decodes every complete valid frame it reaches
at a cursor position below `cnt - 70`; in particular, three valid frames
concatenated into one feed call are all decoded (decode positions 3, 74 and
145, each the `packet_id` byte of one of the three frames) when the last
marker lies below `cnt - 70`. -/
theorem c3_frames_decoded :
    validFrameAt bufThree 213 0 ∧ validFrameAt bufThree 213 71 ∧
    validFrameAt bufThree 213 142 ∧
    (umyo_scan [] bufThree).2.2 = [3, 74, 145] := by
  refine ⟨by decide, by decide, by decide, by decide⟩

/-! ## C4: consumed prefix after a scan pass -/

/-- C4 counterexample: the frame decoded at marker index 0 with
`frame_length` 66 ends at byte 71, but after the pass the accumulator is
not the buffer minus those 71 bytes: only `0 + 2 + 66 = 68` bytes are
dropped, so the last three bytes of the already-parsed frame remain. -/
theorem c4_counterexample :
    (umyo_scan [] bufTail).2.2 = [3] ∧
    (umyo_scan [] bufTail).1 = bufTail.drop 68 ∧
    (umyo_scan [] bufTail).1 ≠ bufTail.drop (0 + 5 + 66) := by
  refine ⟨by decide, by decide, by decide⟩

/-- C4 as amended: after a scan pass the accumulator loses exactly the
bytes up to `marker + 2 + frame_length` of the last parsed frame — three
bytes short of that frame's end — and every byte of a truncated trailing
frame is retained, so that frame is decoded exactly once on a later call
when its remaining bytes arrive.  Concretely: a 71-byte frame plus the
first 40 bytes of a second frame are fed; the first call decodes only the
first frame (position 3) and keeps the second frame's prefix (behind the
3 leftover bytes of the first); feeding the remaining 31 bytes decodes the
second frame (now at position 6) exactly once. -/
theorem c4_retention :
    (umyo_scan [] (testFrame 2 ++ frameB.take 40)).2.2 = [3] ∧
    (umyo_scan [] (testFrame 2 ++ frameB.take 40)).1 =
      [2, 2, 2] ++ frameB.take 40 ∧
    (umyo_scan ([2, 2, 2] ++ frameB.take 40) (frameB.drop 40)).2.2 = [6] ∧
    (umyo_scan ([2, 2, 2] ++ frameB.take 40) (frameB.drop 40)).1 = [3, 3, 3] := by
  refine ⟨by decide, by decide, by decide, by decide⟩

/-! ## C9: the 72-byte accumulation threshold -/

/-- C9: whenever the accumulated buffer (previous remainder plus newly fed
bytes) holds fewer than 72 bytes, the entry point returns 0 and decodes
nothing — the registry is untouched — while the fed bytes are appended and
kept. -/
theorem c9_short_buffer (st : Registry) (buf data : List ℕ)
    (h : (buf ++ data).length < 72) :
    umyo_parse_preprocessor st buf data = (st, buf ++ data, 0, []) := by
  simp only [umyo_parse_preprocessor, umyo_scan, if_pos h, List.foldl_nil]

/-- Witness for C9: a 26-byte chunk that is itself a complete valid frame
is still only buffered; nothing is decoded and 0 is returned. -/
theorem c9_witness :
    validFrameAt shortFrame 26 0 ∧
    umyo_parse_preprocessor [] [] shortFrame = ([], shortFrame, 0, []) := by
  refine ⟨by decide, ?_⟩
  have h := c9_short_buffer [] [] shortFrame (by decide)
  simpa using h

/-! ## Registry lemmas -/

theorem ids_cons (p : uMyo × ℕ) (rest : Registry) :
    ids (p :: rest) = p.1.unit_id :: ids rest := rfl

theorem ids_append (l1 l2 : Registry) : ids (l1 ++ l2) = ids l1 ++ ids l2 :=
  List.map_append _ _ _

theorem sweep_sublist (st : Registry) (uid : ℕ) : List.Sublist (sweep st uid) st := by
  induction st with
  | nil => simp [sweep]
  | cons p rest ih =>
    by_cases h : 1000 < p.2 ∧ p.1.unit_id ≠ uid
    · simpa [sweep, h] using ih.cons p
    · simpa [sweep, h] using ih.cons₂ p

theorem mem_sweep_iff {p : uMyo × ℕ} {st : Registry} {uid : ℕ} :
    p ∈ sweep st uid ↔ p ∈ st ∧ ¬(1000 < p.2 ∧ p.1.unit_id ≠ uid) := by
  induction st with
  | nil => simp [sweep]
  | cons q rest ih =>
    by_cases h : 1000 < q.2 ∧ q.1.unit_id ≠ uid
    · simp only [sweep, if_pos h, ih, List.mem_cons]
      constructor
      · rintro ⟨hm, hc⟩; exact ⟨Or.inr hm, hc⟩
      · rintro ⟨hm | hm, hc⟩
        · subst hm; exact absurd h hc
        · exact ⟨hm, hc⟩
    · simp only [sweep, if_neg h, List.mem_cons, ih]
      constructor
      · rintro (rfl | ⟨hm, hc⟩)
        · exact ⟨Or.inl rfl, h⟩
        · exact ⟨Or.inr hm, hc⟩
      · rintro ⟨hm | hm, hc⟩
        · exact Or.inl hm
        · exact Or.inr ⟨hm, hc⟩

theorem touch_ids (st : Registry) (uid : ℕ) : ids (touch st uid).1 = ids st := by
  induction st with
  | nil => simp [touch]
  | cons p rest ih =>
    by_cases h : p.1.unit_id = uid
    · simp [touch, h, ids]
    · simp only [touch, if_neg h]
      simpa [ids] using ih

theorem touch_none_iff (st : Registry) (uid : ℕ) :
    (touch st uid).2 = none ↔ uid ∉ ids st := by
  induction st with
  | nil => simp [touch, ids]
  | cons p rest ih =>
    by_cases h : p.1.unit_id = uid
    · simp [touch, h, ids_cons]
    · rw [ids_cons, List.mem_cons]
      simp only [touch, if_neg h, Option.map_eq_none']
      rw [ih]
      constructor
      · intro hn hc
        rcases hc with hc | hc
        · exact h hc.symm
        · exact hn hc
      · intro hn
        exact fun hm => hn (Or.inr hm)

theorem touch_mem_le {d : uMyo} {c : ℕ} {st : Registry} (uid : ℕ)
    (h : (d, c) ∈ st) : ∃ c' ≤ c + 1, (d, c') ∈ (touch st uid).1 := by
  induction st with
  | nil => cases h
  | cons p rest ih =>
    rcases List.mem_cons.mp h with heq | hm
    · subst heq
      by_cases hp : d.unit_id = uid
      · exact ⟨0, Nat.zero_le _, by simp [touch, hp]⟩
      · exact ⟨c + 1, le_refl _, by simp [touch, hp]⟩
    · by_cases hp : p.1.unit_id = uid
      · exact ⟨c, Nat.le_succ c, by simp [touch, hp, hm]⟩
      · rcases ih hm with ⟨c', hle, hmem⟩
        exact ⟨c', hle, by simp [touch, hp, hmem]⟩

theorem touch_reset {d : uMyo} {c : ℕ} {st : Registry} {uid : ℕ}
    (h : (d, c) ∈ st) (hid : d.unit_id = uid) (hnd : (ids st).Nodup) :
    (d, 0) ∈ (touch st uid).1 := by
  induction st with
  | nil => cases h
  | cons p rest ih =>
    simp only [ids, List.map_cons, List.nodup_cons] at hnd
    rcases List.mem_cons.mp h with rfl | hm
    · simp [touch, hid]
    · by_cases hp : p.1.unit_id = uid
      · exfalso
        exact hnd.1 (by
          rw [hp, ← hid]
          exact List.mem_map_of_mem (fun q => q.1.unit_id) hm)
      · have := ih hm hnd.2
        simp [touch, hp, this]

/-- Unfolding of `id2idx` through the `match` on the `touch` result. -/
theorem id2idx_eq_none {st : Registry} {uid : ℕ}
    (ht : (touch (sweep st uid) uid).2 = none) :
    id2idx st uid = ((touch (sweep st uid) uid).1 ++ [(uMyo.init uid, 0)],
      (touch (sweep st uid) uid).1.length) := by
  simp only [id2idx]
  rw [ht]

theorem id2idx_eq_some {st : Registry} {uid i : ℕ}
    (ht : (touch (sweep st uid) uid).2 = some i) :
    id2idx st uid = ((touch (sweep st uid) uid).1, i) := by
  simp only [id2idx]
  rw [ht]

theorem ids_sweep_nodup {st : Registry} {uid : ℕ} (h : (ids st).Nodup) :
    (ids (sweep st uid)).Nodup := by
  unfold ids at h ⊢
  exact ((sweep_sublist st uid).map _).nodup h

theorem id2idx_nodup {st : Registry} {uid : ℕ} (h : (ids st).Nodup) :
    (ids (id2idx st uid).1).Nodup := by
  have hs : (ids (sweep st uid)).Nodup := ids_sweep_nodup h
  have hs' : (ids (touch (sweep st uid) uid).1).Nodup := by
    rw [touch_ids]; exact hs
  rcases ht : (touch (sweep st uid) uid).2 with _ | i
  · rw [id2idx_eq_none ht]
    have huid : uid ∉ ids (sweep st uid) := (touch_none_iff _ _).mp ht
    have huid' : uid ∉ ids (touch (sweep st uid) uid).1 := by
      rw [touch_ids]; exact huid
    rw [ids_append]
    refine List.Nodup.append hs' (List.nodup_singleton _) ?_
    intro a ha hb
    have : a = uid := by simpa [ids, uMyo.init] using hb
    subst this
    exact huid' ha
  · rw [id2idx_eq_some ht]
    exact hs'

theorem id2idx_step_mem {d : uMyo} {c : ℕ} {st : Registry} (v : ℕ)
    (h : (d, c) ∈ st) (hc : c ≤ 1000) :
    ∃ c' ≤ c + 1, (d, c') ∈ (id2idx st v).1 := by
  have hsw : (d, c) ∈ sweep st v := by
    refine mem_sweep_iff.mpr ⟨h, ?_⟩
    intro hcon
    exact absurd hcon.1 (by omega)
  rcases touch_mem_le v hsw with ⟨c', hle, hmem⟩
  rcases ht : (touch (sweep st v) v).2 with _ | i
  · exact ⟨c', hle, by rw [id2idx_eq_none ht]; exact List.mem_append_left _ hmem⟩
  · exact ⟨c', hle, by rw [id2idx_eq_some ht]; exact hmem⟩

theorem id2idx_reset_mem {d : uMyo} {c : ℕ} {st : Registry} {uid : ℕ}
    (h : (d, c) ∈ st) (hid : d.unit_id = uid) (hnd : (ids st).Nodup) :
    (d, 0) ∈ (id2idx st uid).1 := by
  have hsw : (d, c) ∈ sweep st uid := by
    refine mem_sweep_iff.mpr ⟨h, ?_⟩
    intro hcon
    exact hcon.2 hid
  have hres := touch_reset hsw hid (ids_sweep_nodup hnd)
  rcases ht : (touch (sweep st uid) uid).2 with _ | i
  · rw [id2idx_eq_none ht]
    exact List.mem_append_left _ hres
  · rw [id2idx_eq_some ht]
    exact hres

theorem touch_found_zero {st : Registry} {uid : ℕ} (h : uid ∈ ids st) :
    ∃ d, (d, 0) ∈ (touch st uid).1 ∧ d.unit_id = uid := by
  induction st with
  | nil => simp [ids] at h
  | cons p rest ih =>
    by_cases hp : p.1.unit_id = uid
    · exact ⟨p.1, by simp [touch, hp], hp⟩
    · have h' : uid ∈ ids rest := by
        rcases (by simpa [ids_cons] using h : uid = p.1.unit_id ∨ uid ∈ ids rest) with hq | hq
        · exact absurd hq.symm hp
        · exact hq
      rcases ih h' with ⟨d, hm, hd⟩
      exact ⟨d, by simp [touch, hp, hm], hd⟩

theorem runCalls_append (st : Registry) (l1 l2 : List ℕ) :
    runCalls st (l1 ++ l2) = runCalls (runCalls st l1) l2 :=
  List.foldl_append _ _ _ _

theorem run_batch (_uid : ℕ) : ∀ (b : List ℕ) (st : Registry) (d : uMyo) (c : ℕ),
    (d, c) ∈ st → c + b.length ≤ 1001 → (ids st).Nodup →
    ∃ c' ≤ c + b.length, (d, c') ∈ runCalls st b ∧ (ids (runCalls st b)).Nodup := by
  intro b
  induction b with
  | nil =>
    intro st d c hm hc hnd
    exact ⟨c, le_refl _, hm, hnd⟩
  | cons v b ih =>
    intro st d c hm hc hnd
    have hc1000 : c ≤ 1000 := by
      simp only [List.length_cons] at hc; omega
    rcases id2idx_step_mem v hm hc1000 with ⟨c', hle, hmem⟩
    have hnd' := @id2idx_nodup _ v hnd
    have hbound : c' + b.length ≤ 1001 := by
      simp only [List.length_cons] at hc; omega
    rcases ih _ _ _ hmem hbound hnd' with ⟨c'', hle'', hmem'', hnd''⟩
    refine ⟨c'', ?_, ?_, ?_⟩
    · simp only [List.length_cons]; omega
    · exact hmem''
    · exact hnd''

theorem run_blocks (uid : ℕ) : ∀ (batches : List (List ℕ)) (st : Registry) (d : uMyo),
    (∀ b ∈ batches, b.length ≤ 1000) → (d, 0) ∈ st → d.unit_id = uid →
    (ids st).Nodup →
    (d, 0) ∈ runCalls st ((batches.map fun b => b ++ [uid]).flatten) ∧
      (ids (runCalls st ((batches.map fun b => b ++ [uid]).flatten))).Nodup := by
  intro batches
  induction batches with
  | nil =>
    intro st d _ hm _ hnd
    exact ⟨by simpa [runCalls] using hm, by simpa [runCalls] using hnd⟩
  | cons b bs ih =>
    intro st d hlen hm hid hnd
    have hb : b.length ≤ 1000 := hlen b (List.mem_cons_self _ _)
    rcases run_batch uid b st d 0 hm (by omega) hnd with ⟨c', _, hmem, hnd'⟩
    have hreset : (d, 0) ∈ (id2idx (runCalls st b) uid).1 :=
      id2idx_reset_mem hmem hid hnd'
    have hnd'' := @id2idx_nodup _ uid hnd'
    have step := ih (id2idx (runCalls st b) uid).1 d
      (fun x hx => hlen x (List.mem_cons_of_mem _ hx)) hreset hid hnd''
    have hjoin : ((b :: bs).map fun x => x ++ [uid]).flatten =
        (b ++ [uid]) ++ ((bs.map fun x => x ++ [uid]).flatten) := by
      simp
    have hrun : runCalls st (((b :: bs).map fun x => x ++ [uid]).flatten) =
        runCalls (id2idx (runCalls st b) uid).1 ((bs.map fun x => x ++ [uid]).flatten) := by
      rw [hjoin, runCalls_append, runCalls_append]
      rfl
    rw [hrun]
    exact step

/-! ## Parse-level lemmas -/

theorem touch_length (st : Registry) (uid : ℕ) :
    (touch st uid).1.length = st.length := by
  induction st with
  | nil => rfl
  | cons p rest ih =>
    by_cases hp : p.1.unit_id = uid
    · simp [touch, hp]
    · simp [touch, hp, ih]

theorem touch_some_lt {st : Registry} {uid i : ℕ}
    (h : (touch st uid).2 = some i) : i < st.length := by
  induction st generalizing i with
  | nil => cases h
  | cons p rest ih =>
    by_cases hp : p.1.unit_id = uid
    · simp only [touch, if_pos hp] at h
      cases h
      simp
    · simp only [touch, if_neg hp] at h
      rcases hr : (touch rest uid).2 with _ | j
      · rw [hr] at h; cases h
      · rw [hr] at h
        simp only [Option.map_some'] at h
        cases h
        have := ih hr
        simp only [List.length_cons]
        omega

theorem id2idx_idx_lt (st : Registry) (uid : ℕ) :
    (id2idx st uid).2 < (id2idx st uid).1.length := by
  rcases ht : (touch (sweep st uid) uid).2 with _ | i
  · rw [id2idx_eq_none ht]
    simp
  · rw [id2idx_eq_some ht]
    have := touch_some_lt ht
    rw [touch_length] at *
    omega

theorem modifyAt_getD {α : Type} (l : List α) (i : ℕ) (f : α → α) (dflt : α)
    (h : i < l.length) :
    (modifyAt l i f).getD i dflt = f (l.getD i dflt) := by
  induction l generalizing i with
  | nil => simp at h
  | cons a l ih =>
    cases i with
    | zero => rfl
    | succ n =>
      simp only [List.length_cons, Nat.succ_lt_succ_iff] at h
      simpa [modifyAt] using ih n h

theorem getD_map_range {α : Type} (f : ℕ → α) {x n : ℕ} (h : x < n) (dflt : α) :
    (((List.range n).map f).getD x dflt) = f x := by
  rw [List.getD_eq_getElem?_getD, List.getElem?_map, List.getElem?_range h]
  rfl

/-- Resolving the id of the sole slot of a one-slot registry matches that
slot at index 0, resetting its counter. -/
theorem id2idx_single {d : uMyo} {c uid : ℕ} (hd : d.unit_id = uid) :
    id2idx [(d, c)] uid = ([(d, 0)], 0) := by
  have hsw : sweep [(d, c)] uid = [(d, c)] := by
    simp [sweep, hd]
  have ht : touch [(d, c)] uid = ([(d, 0)], some 0) := by
    simp [touch, hd]
  simp only [id2idx, hsw, ht]

/-- A valid-type frame parsed against a one-slot registry holding its own
device rewrites that slot through `parseUpdate`. -/
theorem umyo_parse_single (buf : List ℕ) (pos : ℕ) {d : uMyo} {c : ℕ}
    (hd : d.unit_id = frame_unit_id buf pos)
    (hpt : 80 < byteAt buf (pos + 6) ∧ byteAt buf (pos + 6) < 120) :
    umyo_parse buf pos [(d, c)] = [(parseUpdate buf pos d, 0)] := by
  simp only [umyo_parse, id2idx_single hd, if_pos hpt]
  rfl

/-- With a zero magnetometer vector the fusion always produces the heading
`-acos 0 = -π/2`: the horizontal projection of the zero vector is zero, its
dot products vanish, and the sign test fails. -/
theorem magAngle_zero_mag (axv ayv azv : ℤ) :
    magAngle axv ayv azv 0 0 0 = -(π / 2) := by
  have hz : v_renorm ⟨(0 : ℝ), 0, 0⟩ = ⟨0, 0, 0⟩ := by
    have : v_norm ⟨(0 : ℝ), 0, 0⟩ = 0 := by
      simp [v_norm]
    simp [v_renorm, this]
  simp only [magAngle, Int.cast_zero, hz]
  simp only [v_dot, v_mult, mul_zero, zero_mul, add_zero, zero_add, sub_zero,
    zero_sub, neg_zero, hz, lt_irrefl, if_false, lt_self_iff_false]
  rw [Real.arccos_zero]
  ring

/-- The no-magnetometer branch of `umyo_parse`: when `frame_length` does not
exceed `45 + 2*sample_count`, the magnetometer words are taken as zero and
the stored heading is `-π/2` (not 0). -/
theorem parse_no_mag (buf : List ℕ) (pos : ℕ) (st : Registry)
    (hpt : 80 < byteAt buf (pos + 6) ∧ byteAt buf (pos + 6) < 120)
    (hnomag : byteAt buf (pos + 1) ≤ 45 + 2 * (byteAt buf (pos + 6) - 80)) :
    (((umyo_parse buf pos st).getD
        (id2idx st (frame_unit_id buf pos)).2 default).1).mag_angle = -(π / 2) := by
  simp only [umyo_parse, if_pos hpt]
  rw [modifyAt_getD _ _ _ _ (id2idx_idx_lt st (frame_unit_id buf pos))]
  have hmag : ¬(pos + 40 + 2 * (byteAt buf (pos + 6) - 80) + 5
      < pos + byteAt buf (pos + 1)) := by omega
  simp only [parseUpdate, if_neg hmag]
  exact magAngle_zero_mag _ _ _

/-! ## C5: invalid packet type leaves only the registry lookup's effects -/

/-- C5: for a frame whose `packet_type` byte lies outside the exclusive
range (80,120), `umyo_parse` still performs the registry lookup for the
frame's unit id — with all its side effects (eviction sweep, counter
increments, unseen-count reset or slot creation) — and the resulting state
is exactly the lookup's state: no other field of any slot is modified. -/
theorem c5_invalid_packet_type (buf : List ℕ) (pos : ℕ) (st : Registry)
    (h : ¬(80 < byteAt buf (pos + 6) ∧ byteAt buf (pos + 6) < 120)) :
    umyo_parse buf pos st = (id2idx st (frame_unit_id buf pos)).1 := by
  simp only [umyo_parse]
  rw [if_neg h]

/-- Witness for C5: a buffer of zero bytes has `packet_type` 0; parsing it
leaves exactly the state produced by the lookup of unit id 0 — here, on an
empty registry, one fresh zero-initialized slot. -/
theorem c5_witness :
    ¬(80 < byteAt (List.replicate 12 0) 9 ∧ byteAt (List.replicate 12 0) 9 < 120) ∧
    umyo_parse (List.replicate 12 0) 3 [] = [(uMyo.init 0, 0)] := by
  refine ⟨by decide, ?_⟩
  have h := c5_invalid_packet_type (List.replicate 12 0) 3 [] (by decide)
  rw [h]
  rfl

/-! ## C6: registry eviction semantics -/

/-- C6: in one `id2idx` call, (i) a slot survives the eviction sweep exactly
when not (unseen counter over 1000 and unit id different from the resolved
id); (ii) the final slot ids are the sweep's survivors plus a fresh slot
exactly when the resolved id was absent — so removal during the call happens
exactly at the sweep; (iii) a slot whose unit id equals the resolved id is
never evicted by its own lookup; (iv) the call leaves a slot with the
resolved id and counter 0; and (v) a device matched at least once every 1000
resolution calls (counter reset on each match) is never evicted, no matter
how many call blocks elapse. -/
theorem c6_eviction_semantics (st : Registry) (uid : ℕ) :
    (∀ p : uMyo × ℕ, p ∈ sweep st uid ↔
      (p ∈ st ∧ ¬(1000 < p.2 ∧ p.1.unit_id ≠ uid))) ∧
    (ids (id2idx st uid).1 = ids (sweep st uid) ++
      (if uid ∈ ids (sweep st uid) then [] else [uid])) ∧
    (∀ p ∈ st, p.1.unit_id = uid → ∃ c', (p.1, c') ∈ (id2idx st uid).1) ∧
    (∃ d c, (d, c) ∈ (id2idx st uid).1 ∧ d.unit_id = uid ∧ c = 0) ∧
    (∀ batches : List (List ℕ), (∀ b ∈ batches, b.length ≤ 1000) →
      ∀ d : uMyo, (d, 0) ∈ st → d.unit_id = uid → (ids st).Nodup →
        (d, 0) ∈ runCalls st ((batches.map fun b => b ++ [uid]).flatten)) := by
  refine ⟨fun p => mem_sweep_iff, ?_, ?_, ?_, ?_⟩
  · rcases ht : (touch (sweep st uid) uid).2 with _ | i
    · have huid : uid ∉ ids (sweep st uid) := (touch_none_iff _ _).mp ht
      rw [id2idx_eq_none ht, if_neg huid, ids_append, touch_ids]
      rfl
    · have huid : uid ∈ ids (sweep st uid) := by
        by_contra hn
        rw [(touch_none_iff _ _).mpr hn] at ht
        cases ht
      rw [id2idx_eq_some ht, if_pos huid, touch_ids, List.append_nil]
  · rintro ⟨d, c⟩ hp hid
    have hsw : (d, c) ∈ sweep st uid := by
      refine mem_sweep_iff.mpr ⟨hp, ?_⟩
      intro hcon
      exact hcon.2 hid
    rcases touch_mem_le uid hsw with ⟨c', _, hmem⟩
    rcases ht : (touch (sweep st uid) uid).2 with _ | i
    · exact ⟨c', by rw [id2idx_eq_none ht]; exact List.mem_append_left _ hmem⟩
    · exact ⟨c', by rw [id2idx_eq_some ht]; exact hmem⟩
  · by_cases hm : uid ∈ ids (sweep st uid)
    · rcases touch_found_zero hm with ⟨d, hmem, hd⟩
      rcases ht : (touch (sweep st uid) uid).2 with _ | i
      · exact ⟨d, 0, by rw [id2idx_eq_none ht]; exact List.mem_append_left _ hmem, hd, rfl⟩
      · exact ⟨d, 0, by rw [id2idx_eq_some ht]; exact hmem, hd, rfl⟩
    · have ht := (touch_none_iff _ _).mpr hm
      refine ⟨uMyo.init uid, 0, ?_, rfl, rfl⟩
      rw [id2idx_eq_none ht]
      exact List.mem_append_right _ (by simp)
  · intro batches hlen d hm hid hnd
    exact (run_blocks uid batches st d hlen hm hid hnd).1

/-- Witness for C6 at concrete inputs: resolving id 5 on an empty registry
creates a matching slot with counter 0, and a device resolved at the end of
each block of at most 1000 calls survives a block of foreign lookups. -/
theorem c6_witness :
    (∃ d c, (d, c) ∈ (id2idx [] 5).1 ∧ d.unit_id = 5 ∧ c = 0) ∧
    (uMyo.init 5, 0) ∈
      runCalls [(uMyo.init 5, 0)] (([[7]].map fun b => b ++ [5]).flatten) := by
  constructor
  · exact (c6_eviction_semantics [] 5).2.2.2.1
  · refine (c6_eviction_semantics [(uMyo.init 5, 0)] 5).2.2.2.2 [[7]] ?_ (uMyo.init 5) ?_ rfl ?_
    · intro b hb
      simp only [List.mem_singleton] at hb
      subst hb
      decide
    · exact List.mem_singleton.mpr rfl
    · simp [ids]

/-! ## C1: mag_angle when the magnetometer payload is absent -/

/-- C1 counterexample: a decoded no-magnetometer frame leaves the device's
`mag_angle` different from 0 (it is `-acos 0 = -π/2`): the claim that
`mag_angle` is set to 0 fails on this concrete frame. -/
theorem c1_counterexample :
    (((umyo_parse wireFrame 3 []).getD 0 default).1).mag_angle ≠ 0 := by
  have h := parse_no_mag wireFrame 3 [] (by decide) (by decide)
  have hidx : (id2idx [] (frame_unit_id wireFrame 3)).2 = 0 := rfl
  rw [hidx] at h
  rw [h]
  simp [Real.pi_ne_zero]

/-- C1 as amended: for every decoded frame whose payload carries no
magnetometer field (mx, my, mz taken as zero), the device's `mag_angle` is
set to `-π/2` (the sign test on the zero cross product fails, so the sign
is -1, and `acos` of the zero dot product is `π/2`), not 0. -/
theorem c1_no_mag_heading (buf : List ℕ) (pos : ℕ) (st : Registry)
    (hpt : 80 < byteAt buf (pos + 6) ∧ byteAt buf (pos + 6) < 120)
    (hnomag : byteAt buf (pos + 1) ≤ 45 + 2 * (byteAt buf (pos + 6) - 80)) :
    (((umyo_parse buf pos st).getD
        (id2idx st (frame_unit_id buf pos)).2 default).1).mag_angle = -(π / 2) :=
  parse_no_mag buf pos st hpt hnomag

/-- Witness for C1 at the concrete no-magnetometer frame. -/
theorem c1_witness :
    (80 < byteAt wireFrame 9 ∧ byteAt wireFrame 9 < 120) ∧
    byteAt wireFrame 4 ≤ 45 + 2 * (byteAt wireFrame 9 - 80) ∧
    (((umyo_parse wireFrame 3 []).getD
        (id2idx [] (frame_unit_id wireFrame 3)).2 default).1).mag_angle = -(π / 2) :=
  ⟨by decide, by decide, c1_no_mag_heading wireFrame 3 [] (by decide) (by decide)⟩

/-! ## C2: data_id reconstruction -/

/-- C2: the decoder adds exactly `(wire - prev) mod 256` to the slot's
`data_id` and stores the wire byte as the new `prev_wire_data_id`; the
accumulated `data_id` never decreases; and along the wire sequence
254, 255, 0, 1 each step adds exactly 1 (the 255→0 wraparound included). -/
theorem c2_data_id_reconstruction (buf : List ℕ) (pos : ℕ) (d : uMyo) (c : ℕ)
    (hd : d.unit_id = frame_unit_id buf pos)
    (hpt : 80 < byteAt buf (pos + 6) ∧ byteAt buf (pos + 6) < 120) :
    umyo_parse buf pos [(d, c)] = [(parseUpdate buf pos d, 0)] ∧
    (parseUpdate buf pos d).data_id =
      d.data_id + data_id_delta (byteAt buf (pos + 11)) d.prev_data_id ∧
    (parseUpdate buf pos d).prev_data_id = byteAt buf (pos + 11) ∧
    d.data_id ≤ (parseUpdate buf pos d).data_id ∧
    (∀ w p : ℕ, w < 256 → p < 256 →
      (data_id_delta w p : ℤ) = ((w : ℤ) - p) % 256) ∧
    data_id_delta 255 254 = 1 ∧ data_id_delta 0 255 = 1 ∧ data_id_delta 1 0 = 1 := by
  refine ⟨umyo_parse_single buf pos hd hpt, rfl, rfl, Nat.le_add_right _ _,
    ?_, by decide, by decide, by decide⟩
  intro w p hw hp
  simp only [data_id_delta]
  split_ifs with h <;> omega

/-- Witness for C2 at the concrete frame (wire byte 200 against a fresh
device whose `prev_wire_data_id` is 0). -/
theorem c2_witness :
    ((uMyo.init 777).unit_id = frame_unit_id wireFrame 3) ∧
    (parseUpdate wireFrame 3 (uMyo.init 777)).data_id =
      (uMyo.init 777).data_id +
        data_id_delta (byteAt wireFrame 14) (uMyo.init 777).prev_data_id ∧
    (parseUpdate wireFrame 3 (uMyo.init 777)).prev_data_id = byteAt wireFrame 14 := by
  refine ⟨by decide, ?_, ?_⟩
  · exact (c2_data_id_reconstruction wireFrame 3 (uMyo.init 777) 0
      (by decide) (by decide)).2.1
  · exact (c2_data_id_reconstruction wireFrame 3 (uMyo.init 777) 0
      (by decide) (by decide)).2.2.1

/-! ## C7: signed/unsigned 16-bit field conversions -/

/-- C7 counterexample: the *stored* pitch is not the sign-converted wire
pitch word.  In the concrete frame the wire pitch word is (0,0), decoding
to 0, but the device state's pitch after parsing is the recomputed smoothed
value `0.95·0 + 0.05·3142 = 1571/10 ≠ 0`: the claim's round-trip fails for
the pitch field. -/
theorem c7_counterexample :
    umyo_parse wireFrame 3 [(uMyo.init 777, 0)] =
      [(parseUpdate wireFrame 3 (uMyo.init 777), 0)] ∧
    sdec16 (byteAt wireFrame 41) (byteAt wireFrame 42) = 0 ∧
    (parseUpdate wireFrame 3 (uMyo.init 777)).pitch ≠
      ((sdec16 (byteAt wireFrame 41) (byteAt wireFrame 42) : ℤ) : ℝ) := by
  refine ⟨umyo_parse_single wireFrame 3 (by decide) (by decide), by decide, ?_⟩
  have hatan : atan2 ((0 : ℤ) : ℝ) ((-1 : ℤ) : ℝ) = π := by
    rw [atan2]
    norm_num [Real.arctan_zero]
  have hround : round (atan2 ((0 : ℤ) : ℝ) ((-1 : ℤ) : ℝ) * 1000) = 3142 := by
    rw [hatan, round_eq]
    have hp1 := Real.pi_gt_d6
    have hp2 := Real.pi_lt_d6
    have : (⌊π * 1000 + 1 / 2⌋ : ℤ) = 3142 := by
      rw [Int.floor_eq_iff]
      constructor <;> [push_cast; push_cast] <;> nlinarith
    exact this
  have hay : sdec16 (byteAt wireFrame 35) (byteAt wireFrame 36) = 0 := by decide
  have haz : sdec16 (byteAt wireFrame 37) (byteAt wireFrame 38) = -1 := by decide
  have hstart : (parseUpdate wireFrame 3 (uMyo.init 777)).pitch =
      pitchNext (uMyo.init 777).pitch
        (round (atan2 ((sdec16 (byteAt wireFrame 35) (byteAt wireFrame 36) : ℤ) : ℝ)
          ((sdec16 (byteAt wireFrame 37) (byteAt wireFrame 38) : ℤ) : ℝ) * 1000)) := rfl
  rw [hay, haz, hround] at hstart
  have hdev : (uMyo.init 777).pitch = (0 : ℝ) := rfl
  have hval : pitchNext (0 : ℝ) 3142 = (1571 / 10 : ℝ) := by
    rw [pitchNext]
    norm_num
  rw [hdev, hval] at hstart
  rw [hstart, (by decide : sdec16 (byteAt wireFrame 41) (byteAt wireFrame 42) = 0)]
  norm_num

/-- C7 as amended: for every frame with a valid packet type, the decoder
stores each EMG sample via the `hb > 127` sign rule, each quaternion
component, accelerometer axis and yaw/roll word via the `val > 32767` sign
rule, and each of the four spectrum words unsigned; for bytes below 256 the
two sign rules agree and both equal "subtract 65536 when the unsigned value
exceeds 32767", so a synthetic frame round-trips into the device state
under these rules — except the pitch field, whose wire word is decoded by
the same rule but immediately overwritten by the recomputed smoothed
pitch. -/
theorem c7_field_conversions (buf : List ℕ) (pos : ℕ) (d : uMyo) (c : ℕ)
    (hd : d.unit_id = frame_unit_id buf pos)
    (hpt : 80 < byteAt buf (pos + 6) ∧ byteAt buf (pos + 6) < 120) :
    umyo_parse buf pos [(d, c)] = [(parseUpdate buf pos d, 0)] ∧
    (∀ x < byteAt buf (pos + 6) - 80,
      (parseUpdate buf pos d).data_array.getD x 0 =
        emg_sdec (byteAt buf (pos + 12 + 2 * x)) (byteAt buf (pos + 13 + 2 * x))) ∧
    (∀ x < 4,
      (parseUpdate buf pos d).device_spectr.getD x 0 =
        udec16 (byteAt buf (pos + 12 + 2 * (byteAt buf (pos + 6) - 80) + 2 * x))
          (byteAt buf (pos + 13 + 2 * (byteAt buf (pos + 6) - 80) + 2 * x))) ∧
    ((parseUpdate buf pos d).Qsg =
      [sdec16 (byteAt buf (pos + 20 + 2 * (byteAt buf (pos + 6) - 80)))
         (byteAt buf (pos + 21 + 2 * (byteAt buf (pos + 6) - 80))),
       sdec16 (byteAt buf (pos + 22 + 2 * (byteAt buf (pos + 6) - 80)))
         (byteAt buf (pos + 23 + 2 * (byteAt buf (pos + 6) - 80))),
       sdec16 (byteAt buf (pos + 24 + 2 * (byteAt buf (pos + 6) - 80)))
         (byteAt buf (pos + 25 + 2 * (byteAt buf (pos + 6) - 80))),
       sdec16 (byteAt buf (pos + 26 + 2 * (byteAt buf (pos + 6) - 80)))
         (byteAt buf (pos + 27 + 2 * (byteAt buf (pos + 6) - 80)))]) ∧
    ((parseUpdate buf pos d).ax =
      sdec16 (byteAt buf (pos + 28 + 2 * (byteAt buf (pos + 6) - 80)))
        (byteAt buf (pos + 29 + 2 * (byteAt buf (pos + 6) - 80))) ∧
     (parseUpdate buf pos d).ay =
      sdec16 (byteAt buf (pos + 30 + 2 * (byteAt buf (pos + 6) - 80)))
        (byteAt buf (pos + 31 + 2 * (byteAt buf (pos + 6) - 80))) ∧
     (parseUpdate buf pos d).az =
      sdec16 (byteAt buf (pos + 32 + 2 * (byteAt buf (pos + 6) - 80)))
        (byteAt buf (pos + 33 + 2 * (byteAt buf (pos + 6) - 80)))) ∧
    ((parseUpdate buf pos d).yaw =
      sdec16 (byteAt buf (pos + 34 + 2 * (byteAt buf (pos + 6) - 80)))
        (byteAt buf (pos + 35 + 2 * (byteAt buf (pos + 6) - 80))) ∧
     (parseUpdate buf pos d).roll =
      sdec16 (byteAt buf (pos + 38 + 2 * (byteAt buf (pos + 6) - 80)))
        (byteAt buf (pos + 39 + 2 * (byteAt buf (pos + 6) - 80)))) ∧
    (∀ hb lb : ℕ, hb < 256 → lb < 256 →
      emg_sdec hb lb = sdec16 hb lb ∧
      (127 < hb ↔ 32767 < hb * 256 + lb) ∧
      sdec16 hb lb = ((hb : ℤ) * 256 + lb) -
        (if 32767 < hb * 256 + lb then 65536 else 0)) := by
  refine ⟨umyo_parse_single buf pos hd hpt, ?_, ?_, rfl, ⟨rfl, rfl, rfl⟩,
    ⟨rfl, rfl⟩, ?_⟩
  · intro x hx
    have harr : (parseUpdate buf pos d).data_array =
        ((List.range (byteAt buf (pos + 6) - 80)).map fun k =>
          emg_sdec (byteAt buf (pos + 12 + 2 * k)) (byteAt buf (pos + 13 + 2 * k)))
          ++ d.data_array.drop (byteAt buf (pos + 6) - 80) := rfl
    rw [harr, List.getD_append, getD_map_range _ hx]
    simpa using hx
  · intro x hx
    have hsp : (parseUpdate buf pos d).device_spectr =
        ((List.range 4).map fun k =>
          udec16 (byteAt buf (pos + 12 + 2 * (byteAt buf (pos + 6) - 80) + 2 * k))
            (byteAt buf (pos + 13 + 2 * (byteAt buf (pos + 6) - 80) + 2 * k)))
          ++ d.device_spectr.drop 4 := rfl
    rw [hsp, List.getD_append, getD_map_range _ hx]
    simpa using hx
  · intro hb lb hhb hlb
    refine ⟨?_, by omega, ?_⟩
    · by_cases h : 127 < hb
      · rw [emg_sdec, sdec16, if_pos h, if_pos (by omega : 32767 < hb * 256 + lb)]
        ring
      · rw [emg_sdec, sdec16, if_neg h, if_neg (by omega : ¬32767 < hb * 256 + lb)]
    · rw [sdec16]
      split_ifs with h
      · ring
      · ring

/-- Witness for C7 at the concrete frame: the first EMG sample is the
sign-converted word (200,100), i.e. −14236. -/
theorem c7_witness :
    (80 < byteAt wireFrame 9 ∧ byteAt wireFrame 9 < 120) ∧
    (parseUpdate wireFrame 3 (uMyo.init 777)).data_array.getD 0 0 =
      emg_sdec (byteAt wireFrame (3 + 12 + 2 * 0)) (byteAt wireFrame (3 + 13 + 2 * 0)) := by
  refine ⟨by decide, ?_⟩
  exact (c7_field_conversions wireFrame 3 (uMyo.init 777) 0
    (by decide) (by decide)).2.1 0 (by decide)

/-! ## C8: smoothed-pitch update -/

/-- C8 counterexample: for a frame whose recomputed pitch is
`round(atan2(0,−1)·1000) = 3142 > 2000` against a persisted smoothed pitch
of −2001 < −2000 — opposite sides of the ±2000 boundary, so the claim
demands a snap to 3142 — the code stores the blended value
`0.95·(−2001) + 0.05·3142 = −34877/20`, because its snap test compares the
*blended* value (−1743.85, not below −2000) against the boundary, not the
old smoothed value. -/
theorem c8_counterexample :
    umyo_parse wireFrame 3 [(devC8, 0)] = [(parseUpdate wireFrame 3 devC8, 0)] ∧
    round (atan2 ((0 : ℤ) : ℝ) ((-1 : ℤ) : ℝ) * 1000) = 3142 ∧
    ((2000 : ℤ) < 3142) ∧ (devC8.pitch < -2000) ∧
    (parseUpdate wireFrame 3 devC8).pitch = -(34877 / 20 : ℝ) ∧
    (parseUpdate wireFrame 3 devC8).pitch ≠ ((3142 : ℤ) : ℝ) := by
  refine ⟨umyo_parse_single wireFrame 3 (by decide) (by decide), ?_⟩
  have hatan : atan2 ((0 : ℤ) : ℝ) ((-1 : ℤ) : ℝ) = π := by
    rw [atan2]
    norm_num [Real.arctan_zero]
  have hround : round (atan2 ((0 : ℤ) : ℝ) ((-1 : ℤ) : ℝ) * 1000) = 3142 := by
    rw [hatan, round_eq]
    have hp1 := Real.pi_gt_d6
    have hp2 := Real.pi_lt_d6
    have : (⌊π * 1000 + 1 / 2⌋ : ℤ) = 3142 := by
      rw [Int.floor_eq_iff]
      constructor <;> [push_cast; push_cast] <;> nlinarith
    exact this
  have hay : sdec16 (byteAt wireFrame 35) (byteAt wireFrame 36) = 0 := by decide
  have haz : sdec16 (byteAt wireFrame 37) (byteAt wireFrame 38) = -1 := by decide
  have hstart : (parseUpdate wireFrame 3 devC8).pitch =
      pitchNext devC8.pitch
        (round (atan2 ((sdec16 (byteAt wireFrame 35) (byteAt wireFrame 36) : ℤ) : ℝ)
          ((sdec16 (byteAt wireFrame 37) (byteAt wireFrame 38) : ℤ) : ℝ) * 1000)) := rfl
  rw [hay, haz] at hstart
  rw [hround] at hstart
  have hdev : devC8.pitch = (-2001 : ℝ) := rfl
  have hval : pitchNext (-2001 : ℝ) 3142 = -(34877 / 20 : ℝ) := by
    rw [pitchNext]
    norm_num
  rw [hdev, hval] at hstart
  refine ⟨hround, by norm_num, by rw [hdev]; norm_num, hstart, ?_⟩
  rw [hstart]
  norm_num

/-- C8 as amended: for every decoded frame, the new pitch is computed as
`round(atan2(ay, az)·1000)` and the persisted smoothed pitch becomes
`pitchNext old new`: the blend `0.95·old + 0.05·new`, except that when the
raw new pitch and the *freshly blended* value (not the old smoothed value)
lie on opposite sides of the ±2000 wraparound boundary, the smoothed pitch
is set directly to the new pitch instead. -/
theorem c8_pitch_blend (buf : List ℕ) (pos : ℕ) (d : uMyo) (c : ℕ)
    (hd : d.unit_id = frame_unit_id buf pos)
    (hpt : 80 < byteAt buf (pos + 6) ∧ byteAt buf (pos + 6) < 120) :
    umyo_parse buf pos [(d, c)] = [(parseUpdate buf pos d, 0)] ∧
    (parseUpdate buf pos d).pitch =
      pitchNext d.pitch
        (round (atan2
          ((sdec16 (byteAt buf (pos + 30 + 2 * (byteAt buf (pos + 6) - 80)))
            (byteAt buf (pos + 31 + 2 * (byteAt buf (pos + 6) - 80))) : ℤ) : ℝ)
          ((sdec16 (byteAt buf (pos + 32 + 2 * (byteAt buf (pos + 6) - 80)))
            (byteAt buf (pos + 33 + 2 * (byteAt buf (pos + 6) - 80))) : ℤ) : ℝ)
          * 1000)) ∧
    (∀ s : ℝ, ∀ pn : ℤ, pitchNext s pn =
      if 2000 < pn ∧ s * 0.95 + 0.05 * (pn : ℝ) < -2000 then (pn : ℝ)
      else if pn < -2000 ∧ 2000 < s * 0.95 + 0.05 * (pn : ℝ) then (pn : ℝ)
      else s * 0.95 + 0.05 * (pn : ℝ)) := by
  refine ⟨umyo_parse_single buf pos hd hpt, rfl, ?_⟩
  intro s pn
  rw [pitchNext]
  by_cases h1 : 2000 < pn ∧ s * 0.95 + 0.05 * (pn : ℝ) < -2000
  · rw [if_pos h1, if_pos h1]
    have h2 : ¬(pn < -2000 ∧ 2000 < (pn : ℝ)) := by
      rintro ⟨ha, _⟩
      omega
    rw [if_neg h2]
  · rw [if_neg h1, if_neg h1]

/-- Witness for C8 at the concrete frame: the stored pitch is the
blend-then-snap update of the persisted pitch with the frame's
`round(atan2(ay, az)·1000)`. -/
theorem c8_witness :
    (80 < byteAt wireFrame 9 ∧ byteAt wireFrame 9 < 120) ∧
    (parseUpdate wireFrame 3 (uMyo.init 777)).pitch =
      pitchNext (uMyo.init 777).pitch
        (round (atan2 ((sdec16 (byteAt wireFrame 35) (byteAt wireFrame 36) : ℤ) : ℝ)
          ((sdec16 (byteAt wireFrame 37) (byteAt wireFrame 38) : ℤ) : ℝ) * 1000)) := by
  refine ⟨by decide, ?_⟩
  exact (c8_pitch_blend wireFrame 3 (uMyo.init 777) 0 (by decide) (by decide)).2.1

end UMyo
